import Mathlib

/-!
Verification of the soundscope audio preprocessing core.

Shallow embedding of the stateless numeric transforms of the repository:
silence trimming (`soundscope/util/trim.py`), block-wise reversal
(`soundscope/util/reverse.py`), channel splitting
(`subpackages/util/split.py`), and — modelled from the specification, since
their sources are absent from the repository snapshot (only
`soundscope/tests/test_dsp.py` exercises them) — peak normalization and
mid/side encoding (`soundscope.dsp.normalize`, `soundscope.dsp.midside`).

Sample values are embedded as rationals `ℚ`: every concrete value appearing
in the claims (integers, halves, powers of two) is exactly representable as
a double, on which the Python float operations used here (abs, compare,
add, negate; division by an exact power of two) are exact, so the rational
model agrees with the double-precision run on those inputs.

A numpy array of audio data is a `List ℚ` (mono) or a `List (ℚ × ℚ)`
(stereo, one pair per frame, time-major).
-/

namespace Soundscope

/-- Embedding of `sys.float_info.epsilon`, the double-precision machine
rounding unit 2⁻⁵², used by `mask` in `soundscope/util/trim.py`. -/
def epsilon : ℚ := Rat.divInt 1 (Int.ofNat (2 ^ 52))

set_option exponentiation.threshold 1200 in
/-- The smallest representable positive double, 2⁻¹⁰⁷⁴ (subnormal).  This
constant follows the specification's words in its Epsilon entry ("the
smallest representable positive double") for comparison against the source's
actual threshold `epsilon`; it is not used by the embedded code. -/
def minPosDouble : ℚ := Rat.divInt 1 (Int.ofNat (2 ^ 1074))

/-- Embedding of Python's `abs` on one sample (exact on doubles). -/
def absQ (v : ℚ) : ℚ := if v < 0 then -v else v

/-- Per-sample non-silence test: `abs(v) > epsilon`, the elementwise body of
`mask` in `soundscope/util/trim.py`. -/
def maskElem (v : ℚ) : Bool := decide (epsilon < absQ v)

/-- Embedding of `mask(array)` from `soundscope/util/trim.py` applied to a
1-d array: the boolean array `abs(array) > epsilon`. -/
def maskList (a : List ℚ) : List Bool := a.map maskElem

/-- Embedding of `first_nonzero(array, 0, mask)` from
`soundscope/util/trim.py` restricted to one channel (one column of the
2-d case, or the whole 1-d array):
`np.where(mask.any(), mask.argmax(), -1)`.  `argmax` on a boolean vector
returns the index of the first `True`; the `-1` branch is taken when the
channel is entirely silent. -/
def firstNonzeroMask (m : List Bool) : Int :=
  if m.any id then (m.findIdx id : Int) else -1

/-- Embedding of `last_nonzero(array, 0, mask)` from
`soundscope/util/trim.py` restricted to one channel:
`np.where(mask.any(), n - np.flip(mask).argmax() - 1, -1)` where `n` is the
channel length. -/
def lastNonzeroMask (m : List Bool) : Int :=
  if m.any id then (m.length : Int) - (m.reverse.findIdx id : Int) - 1 else -1

/-- Embedding of the Python slice `a[s:e]` (step 1) with numpy/Python index
semantics: a negative bound counts from the end (`n + s`), clamped below at
0; a nonnegative bound is clamped above at `n`. -/
def pySlice {α : Type} (a : List α) (s e : Int) : List α :=
  let n : Int := a.length
  let start := if s < 0 then (n + s).toNat
    else if s.toNat ≤ a.length then s.toNat else a.length
  let stop := if e < 0 then (n + e).toNat
    else if e.toNat ≤ a.length then e.toNat else a.length
  (a.take stop).drop start

/-- Embedding of `trim(array)` from `soundscope/util/trim.py` for a 1-d
(mono) array:
`array[np.amin(first_nonzero(array, 0, m)) : np.amax(last_nonzero(array, 0, m)) + 1]`.
For a 1-d array `first_nonzero`/`last_nonzero` yield one scalar, so
`np.amin`/`np.amax` are the identity.  On an empty array numpy's
`argmax` raises `ValueError` (both `np.where` branches are evaluated
eagerly), embedded as `none`. -/
def trimMono (a : List ℚ) : Option (List ℚ) :=
  if a.isEmpty then none
  else
    some (pySlice a (firstNonzeroMask (maskList a))
      (lastNonzeroMask (maskList a) + 1))

/-- Embedding of `trim(array)` from `soundscope/util/trim.py` for a 2-d
(stereo) array of shape (n, 2).  With `axis = 0`, `first_nonzero` and
`last_nonzero` return one index per channel (column); `np.amin` and
`np.amax` over those two indices are `min` and `max`.  On an empty array
(shape (0, 2)) numpy's `argmax` over the length-0 axis raises `ValueError`,
embedded as `none`. -/
def imin (x y : Int) : Int := if x ≤ y then x else y

def imax (x y : Int) : Int := if x ≤ y then y else x

def trimStereo (a : List (ℚ × ℚ)) : Option (List (ℚ × ℚ)) :=
  if a.isEmpty then none
  else
    some (pySlice a
      (imin (firstNonzeroMask (maskList (a.map Prod.fst)))
        (firstNonzeroMask (maskList (a.map Prod.snd))))
      (imax (lastNonzeroMask (maskList (a.map Prod.fst)))
        (lastNonzeroMask (maskList (a.map Prod.snd))) + 1))


/-- The list of the first `n` chunks of `k` elements each of `l`: the
embedding of `np.split(array, n)` when `n * k = len(array)` (numpy requires
the equal division, which `reverse` checks before splitting). -/
def chunksExact {α : Type} : Nat → Nat → List α → List (List α)
  | 0, _, _ => []
  | n + 1, k, l => l.take k :: chunksExact n k (l.drop k)

/-- Embedding of `reverse(array, channels, subdivision)` from
`soundscope/util/reverse.py`.  When `len(array) % subdivision != 0` the
source prints an error message and falls through, implicitly returning
`None`: embedded as `none`.  Otherwise
`np.row_stack(np.flip(np.split(array, subdivision), axis=1))`: split into
`subdivision` equal segments, flip each segment along the time axis
(axis 1 of the stacked segments; per-frame channel data is untouched), and
concatenate the segments back in order.  The `channels == '1'` reshape only
restores the flat numpy shape of a mono array and is absorbed by the list
representation, which is the same for a mono `List ℚ` and a stereo
`List (ℚ × ℚ)`; the embedding is therefore polymorphic in the frame
type `α`. -/
def reverseArr {α : Type} (a : List α) (subdivision : Nat) : Option (List α) :=
  if a.length % subdivision ≠ 0 then none
  else
    some (((chunksExact subdivision (a.length / subdivision) a).map
      List.reverse).flatten)


/-- Result type of `split` from `subpackages/util/split.py`: the source
either returns a human-readable string (mono input) or the pair of channel
lists. -/
inductive SplitResult where
  | monoMessage : String → SplitResult
  | pair : List ℚ → List ℚ → SplitResult
deriving DecidableEq

/-- Embedding of `split(array, channels, name)` from
`subpackages/util/split.py`.  For `channels == '1'` the source returns the
format string `'%s is mono, import 2 channel audio array for splitting.' % name`
without touching the array.  Otherwise `np.hsplit(array, 2)` yields the two
(n, 1) columns of the (n, 2) stereo array and `.flatten(order='F')` reads
each column out in time order: the left channel is the list of first
components, the right channel the list of second components. -/
def split (a : List (ℚ × ℚ)) (channels : String) (name : String) : SplitResult :=
  if channels = "1" then
    SplitResult.monoMessage
      (name ++ " is mono, import 2 channel audio array for splitting.")
  else SplitResult.pair (a.map Prod.fst) (a.map Prod.snd)


/-- Modelled from the spec: the forward (encode) direction of
`soundscope.dsp.midside` on a stereo array, whose source is missing from
the repository snapshot (only `soundscope/tests/test_dsp.py` calls it).
Per the specification: `mid = 0.5*(L+R)`, `side = 0.5*(L-R)`, applied
frame by frame; the mode selector's encode direction with stereo
channels ('2'). -/
def encodeMS (x : List (ℚ × ℚ)) : List (ℚ × ℚ) :=
  x.map (fun p => (1 / 2 * (p.1 + p.2), 1 / 2 * (p.1 - p.2)))

/-- Modelled from the spec: the inverse (decode) direction of
`soundscope.dsp.midside` on a stereo array, whose source is missing from
the repository snapshot.  Per the specification:
`(L, R) = (mid + side, mid - side)`, applied frame by frame; the mode
selector's decode direction with stereo channels ('2'). -/
def decodeMS (x : List (ℚ × ℚ)) : List (ℚ × ℚ) :=
  x.map (fun p => (p.1 + p.2, p.1 - p.2))

/-- Computable binary maximum on ℚ (Python's `max` / numpy's reduction
step), used by the spec-modelled peak computation. -/
def qmax (x y : ℚ) : ℚ := if x ≤ y then y else x

/-- Modelled from the spec: the peak `max(|sample|)` over all samples of a
(flattened) array, the scale factor of `soundscope.dsp.normalize`, whose
source is missing from the repository snapshot.  An empty array has
peak 0. -/
def peak (x : List ℚ) : ℚ := (x.map absQ).foldr qmax 0

/-- Modelled from the spec: `soundscope.dsp.normalize`, whose source is
missing from the repository snapshot (only `soundscope/tests/test_dsp.py`
calls it).  Per the specification: compute `peak = max(|sample|)`; if
`peak == 0` return the input unchanged with `applied = false`, otherwise
return `array / peak` with `applied = true`. -/
def normalize (x : List ℚ) : List ℚ × Bool :=
  if peak x = 0 then (x, false) else (x.map (· / peak x), true)


theorem absQ_eq_abs (v : ℚ) : absQ v = |v| := by
  rcases lt_or_le v 0 with h | h
  · simp [absQ, h, abs_of_neg h]
  · simp [absQ, not_lt.mpr h, abs_of_nonneg h]

theorem qmax_eq_max (x y : ℚ) : qmax x y = max x y := by
  simp [qmax, max_def]

theorem imin_eq_min (x y : Int) : imin x y = min x y := (min_def x y).symm

theorem imax_eq_max (x y : Int) : imax x y = max x y := by
  rw [imax, max_def]

theorem maskList_any_eq_false {a : List ℚ} (h : ∀ v ∈ a, maskElem v = false) :
    (maskList a).any id = false := by
  simp only [maskList, List.any_eq_false, id]
  intro v hv
  obtain ⟨w, hw, rfl⟩ := List.mem_map.1 hv
  simp [h w hw]

theorem pySlice_stop_zero {α : Type} (a : List α) (s : Int) :
    pySlice a s 0 = [] := by
  simp [pySlice]

theorem chunksExact_length {α : Type} (n k : Nat) (l : List α) :
    (chunksExact n k l).length = n := by
  induction n generalizing l with
  | zero => rfl
  | succ n ih => simp [chunksExact, ih]

theorem length_of_mem_chunksExact {α : Type} {n k : Nat} {l : List α}
    (h : l.length = n * k) : ∀ c ∈ chunksExact n k l, c.length = k := by
  induction n generalizing l with
  | zero => intro c hc; simp [chunksExact] at hc
  | succ n ih =>
    intro c hc
    rw [Nat.succ_mul] at h
    simp only [chunksExact, List.mem_cons] at hc
    rcases hc with rfl | hc
    · rw [List.length_take]; omega
    · exact ih (by rw [List.length_drop]; omega) c hc

theorem flatten_chunksExact {α : Type} {n k : Nat} {l : List α}
    (h : l.length = n * k) : (chunksExact n k l).flatten = l := by
  induction n generalizing l with
  | zero =>
    have : l = [] := List.length_eq_zero.mp (by simpa using h)
    simp [chunksExact, this]
  | succ n ih =>
    rw [Nat.succ_mul] at h
    simp only [chunksExact, List.flatten_cons]
    rw [ih (by rw [List.length_drop]; omega), List.take_append_drop]

theorem chunksExact_flatten {α : Type} (L : List (List α)) (k : Nat)
    (h : ∀ c ∈ L, c.length = k) :
    chunksExact L.length k L.flatten = L := by
  induction L with
  | nil => rfl
  | cons c L ih =>
    have hc : c.length = k := h c (by simp)
    simp only [List.length_cons, chunksExact, List.flatten_cons]
    rw [List.take_left' hc, List.drop_left' hc,
      ih (fun d hd => h d (List.mem_cons_of_mem c hd))]

theorem flatten_length_of_chunks {α : Type} (L : List (List α)) (k : Nat)
    (h : ∀ c ∈ L, c.length = k) : L.flatten.length = L.length * k := by
  induction L with
  | nil => simp
  | cons c L ih =>
    simp only [List.flatten_cons, List.length_append, List.length_cons,
      Nat.succ_mul]
    rw [h c (by simp), ih (fun d hd => h d (List.mem_cons_of_mem c hd))]
    omega

theorem flatten_segment {α : Type} (L : List (List α)) (k : Nat)
    (h : ∀ c ∈ L, c.length = k) :
    ∀ i (hi : i < L.length),
      (L.flatten.drop (i * k)).take k = L.get ⟨i, hi⟩ := by
  induction L with
  | nil => intro i hi; simp at hi
  | cons c L ih =>
    intro i hi
    have hc : c.length = k := h c (by simp)
    cases i with
    | zero =>
      simp only [List.flatten_cons, Nat.zero_mul, List.drop_zero]
      rw [List.take_left' hc]
      rfl
    | succ i =>
      have hik : (i + 1) * k = c.length + i * k := by
        rw [hc, Nat.succ_mul]; omega
      simp only [List.flatten_cons]
      rw [hik, List.drop_append,
        ih (fun d hd => h d (List.mem_cons_of_mem c hd)) i
          (Nat.lt_of_succ_lt_succ (by simpa using hi))]
      rfl

theorem peak_cons (a : ℚ) (x : List ℚ) :
    peak (a :: x) = qmax (absQ a) (peak x) := rfl

theorem peak_nonneg (x : List ℚ) : 0 ≤ peak x := by
  induction x with
  | nil => exact le_refl 0
  | cons a x ih =>
    rw [peak_cons, qmax_eq_max]
    exact le_trans ih (le_max_right _ _)

theorem peak_pos {x : List ℚ} (h : peak x ≠ 0) : 0 < peak x :=
  lt_of_le_of_ne (peak_nonneg x) (Ne.symm h)

theorem peak_map_div (x : List ℚ) {c : ℚ} (hc : 0 < c) :
    peak (x.map (· / c)) = peak x / c := by
  induction x with
  | nil => simp [peak]
  | cons a x ih =>
    simp only [List.map_cons, peak_cons, qmax_eq_max, ih]
    rw [absQ_eq_abs, absQ_eq_abs, abs_div, abs_of_pos hc,
      max_div_div_right hc.le]

/-- Claim C1 (code bug): `trim` does not return the earliest-to-latest
non-silent slice for a stereo input whose left channel is entirely silent.
On `[[0,1],[0,2],[0,3]]` every frame carries signal in the right channel, so
the claimed result is the whole array; the code instead returns only
`[[0,3]]`, because the all-silent left channel's sentinel `-1` is the
minimum of the per-channel first indices and Python interprets the slice
start `-1` as index `n - 1`. -/
theorem C1_trim_silent_channel_eval :
    trimStereo [(0, 1), (0, 2), (0, 3)] = some [(0, 3)] := by decide

/-- Claim C7 (code bug): on an array whose length the subdivision does not
divide, `reverse` takes the error branch that only prints a message, so the
call implicitly returns `None` (embedded as `none`) — a sentinel in place of
the expected array, not the explicit `InvalidSubdivision` error value the
claim requires. -/
theorem C7_reverse_invalid_subdivision_eval :
    reverseArr ([1, 2, 3] : List ℚ) 2 = none := by decide

/-- Claim C8 (code bug): called on a mono array, `split` returns the
descriptive format string `'%s is mono, import 2 channel audio array for
splitting.' % name` in place of the pair of channel arrays, not the explicit
`WrongChannelCount` error value the claim requires. -/
theorem C8_split_mono_eval :
    split [] "1" "mix"
      = SplitResult.monoMessage
        "mix is mono, import 2 channel audio array for splitting." := by rfl

set_option exponentiation.threshold 1200 in
/-- Claim C9, counterexample: the silence threshold of `mask` is
`sys.float_info.epsilon` = 2⁻⁵², not the smallest representable positive
double 2⁻¹⁰⁷⁴.  The sample 2⁻⁶⁰ is classified silent by the code
(`maskElem` is `false`) although its absolute value exceeds the smallest
representable positive double, so the claimed equivalence fails there. -/
theorem C9_epsilon_counterexample :
    maskElem (Rat.divInt 1 (Int.ofNat (2 ^ 60))) = false ∧
    minPosDouble < absQ (Rat.divInt 1 (Int.ofNat (2 ^ 60))) := by decide

/-- Claim C9, amended: a sample is classified silent by `mask` exactly when
its absolute value does not exceed `sys.float_info.epsilon`, the machine
floating-point rounding unit 2⁻⁵² (as the spec's glossary states), not the
smallest representable positive double. -/
theorem C9_mask_threshold :
    ∀ v : ℚ, (maskElem v = false ↔ absQ v ≤ epsilon) ∧
      (maskElem v = true ↔ epsilon < absQ v) ∧
      epsilon = 1 / 2 ^ 52 := by
  intro v
  refine ⟨?_, ?_, ?_⟩
  · simp [maskElem, not_lt]
  · simp [maskElem]
  · rw [epsilon, Rat.divInt_eq_div]
    norm_num

/-- Claim C10, counterexample: on the empty array (vacuously all-silent)
`trim` does not return an empty array: numpy's `argmax` raises `ValueError`
on an empty sequence (both branches of `np.where` are evaluated), embedded
as `none`. -/
theorem C10_trim_empty_counterexample :
    trimMono ([] : List ℚ) = none := by decide

/-- Claim C10, amended: for every nonempty mono or stereo array all of whose
samples are silent, every per-channel first/last boundary index is the
sentinel `-1` and `trim` returns the empty array; on the empty array the
code instead raises (`none`). -/
theorem C10_trim_all_silent :
    (∀ a : List ℚ, a ≠ [] → (∀ v ∈ a, maskElem v = false) →
      firstNonzeroMask (maskList a) = -1 ∧
      lastNonzeroMask (maskList a) = -1 ∧
      trimMono a = some []) ∧
    (∀ s : List (ℚ × ℚ), s ≠ [] →
      (∀ p ∈ s, maskElem p.1 = false ∧ maskElem p.2 = false) →
      firstNonzeroMask (maskList (s.map Prod.fst)) = -1 ∧
      firstNonzeroMask (maskList (s.map Prod.snd)) = -1 ∧
      lastNonzeroMask (maskList (s.map Prod.fst)) = -1 ∧
      lastNonzeroMask (maskList (s.map Prod.snd)) = -1 ∧
      trimStereo s = some []) := by
  constructor
  · intro a ha hsil
    have hany : (maskList a).any id = false := maskList_any_eq_false hsil
    refine ⟨?_, ?_, ?_⟩
    · simp [firstNonzeroMask, hany]
    · simp [lastNonzeroMask, hany]
    · rw [trimMono, if_neg (by simpa using ha)]
      rw [firstNonzeroMask, lastNonzeroMask, if_neg (by simp [hany]),
        if_neg (by simp [hany])]
      norm_num [pySlice_stop_zero]
  · intro s hs hsil
    have hanyL : (maskList (s.map Prod.fst)).any id = false :=
      maskList_any_eq_false (by
        intro v hv
        obtain ⟨p, hp, rfl⟩ := List.mem_map.1 hv
        exact (hsil p hp).1)
    have hanyR : (maskList (s.map Prod.snd)).any id = false :=
      maskList_any_eq_false (by
        intro v hv
        obtain ⟨p, hp, rfl⟩ := List.mem_map.1 hv
        exact (hsil p hp).2)
    refine ⟨?_, ?_, ?_, ?_, ?_⟩
    · simp [firstNonzeroMask, hanyL]
    · simp [firstNonzeroMask, hanyR]
    · simp [lastNonzeroMask, hanyL]
    · simp [lastNonzeroMask, hanyR]
    · rw [trimStereo, if_neg (by simpa using hs)]
      rw [firstNonzeroMask, firstNonzeroMask, lastNonzeroMask,
        lastNonzeroMask, if_neg (by simp [hanyL]), if_neg (by simp [hanyR]),
        if_neg (by simp [hanyL]), if_neg (by simp [hanyR])]
      norm_num [imin, imax, pySlice_stop_zero]

/-- Claim C10, witness: the amended statement applied to the nonempty
all-silent arrays `[0]` and `[(0, 0)]`. -/
theorem C10_trim_all_silent_witness :
    trimMono [0] = some [] ∧ trimStereo [(0, 0)] = some [] :=
  ⟨(C10_trim_all_silent.1 [0] (by decide) (by decide)).2.2,
   (C10_trim_all_silent.2 [(0, 0)] (by decide) (by decide)).2.2.2.2⟩

/-- Claim C2: the mid/side codec is round-trip exact — decoding an encoded
stereo array recovers it — and on the 2×2 identity matrix (frames `(1,0)`
and `(0,1)`) encoding yields `[[0.5, 0.5], [0.5, -0.5]]` and decoding that
matrix yields the identity back. -/
theorem C2_midside_roundtrip :
    (∀ x : List (ℚ × ℚ), decodeMS (encodeMS x) = x) ∧
    encodeMS [(1, 0), (0, 1)] = [(1/2, 1/2), (1/2, -1/2)] ∧
    decodeMS [(1/2, 1/2), (1/2, -1/2)] = [(1, 0), (0, 1)] := by
  refine ⟨?_, ?_, ?_⟩
  · intro x
    induction x with
    | nil => rfl
    | cons p t ih =>
      obtain ⟨a, b⟩ := p
      simp only [encodeMS, decodeMS, List.map_cons] at ih ⊢
      rw [List.cons_eq_cons]
      refine ⟨Prod.ext (by ring) (by ring), ih⟩
  · norm_num [encodeMS]
  · norm_num [decodeMS]

/-- Claim C3: `normalize` returns a fully silent array unchanged with
`applied = false`; otherwise it divides by the peak and returns
`applied = true`, after which the output's peak is exactly 1, the output has
the input's length, and each output sample has the sign of the corresponding
input sample; and `normalize([-50, -25, 0, 25, 50])` is
`([-1, -0.5, 0, 0.5, 1], true)`. -/
theorem C3_normalize_spec :
    (∀ x : List ℚ,
      (peak x = 0 → normalize x = (x, false)) ∧
      (peak x ≠ 0 →
        (normalize x).2 = true ∧
        (normalize x).1.length = x.length ∧
        peak (normalize x).1 = 1 ∧
        ∀ i : Nat,
          (0 < (normalize x).1.getD i 0 ↔ 0 < x.getD i 0) ∧
          ((normalize x).1.getD i 0 < 0 ↔ x.getD i 0 < 0))) ∧
    normalize [-50, -25, 0, 25, 50] = ([-1, -1/2, 0, 1/2, 1], true) := by
  constructor
  · intro x
    constructor
    · intro h0
      rw [normalize, if_pos h0]
    · intro hne
      have hp : 0 < peak x := peak_pos hne
      rw [normalize, if_neg hne]
      refine ⟨rfl, by simp, ?_, ?_⟩
      · rw [peak_map_div x hp, div_self hne]
      · intro i
        simp only [List.getD_eq_getElem?_getD, List.getElem?_map]
        cases hx : x[i]? with
        | none => simp
        | some v =>
          simp only [Option.map_some', Option.getD_some]
          constructor
          · rw [lt_div_iff₀ hp, zero_mul]
          · rw [div_lt_iff₀ hp, zero_mul]
  · have h50 : peak [-50, -25, 0, 25, 50] = 50 := by decide
    rw [normalize, if_neg (by rw [h50]; norm_num), h50]
    norm_num

/-- Claim C3, witness: both branches of the normalize theorem at concrete
inputs — the silent array `[0, 0]` (peak 0) is returned unchanged with the
flag `false`, and `[-50, -25, 0, 25, 50]` (peak 50, nonzero) yields the
flag `true` with output peak exactly 1. -/
theorem C3_normalize_spec_witness :
    normalize [0, 0] = ([0, 0], false) ∧
    (normalize [-50, -25, 0, 25, 50]).2 = true ∧
    peak (normalize [-50, -25, 0, 25, 50]).1 = 1 :=
  ⟨(C3_normalize_spec.1 [0, 0]).1 (by decide),
   ((C3_normalize_spec.1 [-50, -25, 0, 25, 50]).2 (by decide)).1,
   ((C3_normalize_spec.1 [-50, -25, 0, 25, 50]).2 (by decide)).2.2.1⟩

/-- Claim C4: for a positive subdivision `n` dividing the array length,
`reverse` succeeds and returns an array of the same length whose `i`-th
length-`len/n` segment is the reversal of the input's `i`-th segment, for
every `i < n`; subdivision 1 reverses the whole array, and
`reverse([1,2,3,4], subdivision=2) = [2,1,4,3]`. -/
theorem C4_reverse_segmentwise :
    (∀ (α : Type) (a : List α) (n : Nat), 0 < n → n ∣ a.length →
      (reverseArr a n).isSome = true ∧
      ((reverseArr a n).getD []).length = a.length ∧
      ∀ i, i < n →
        (((reverseArr a n).getD []).drop (i * (a.length / n))).take
            (a.length / n)
          = ((a.drop (i * (a.length / n))).take (a.length / n)).reverse) ∧
    (∀ b : List ℚ, reverseArr b 1 = some b.reverse) ∧
    reverseArr ([1, 2, 3, 4] : List ℚ) 2 = some [2, 1, 4, 3] := by
  refine ⟨?_, ?_, by decide⟩
  · intro α a n hn hdvd
    obtain ⟨k, hk⟩ := hdvd
    have hmod : a.length % n = 0 := by rw [hk]; exact Nat.mul_mod_right n k
    have hdivq : a.length / n = k := by
      rw [hk]; exact Nat.mul_div_cancel_left k hn
    have hmemC : ∀ c ∈ chunksExact n k a, c.length = k :=
      length_of_mem_chunksExact hk
    have hflat : (chunksExact n k a).flatten = a := flatten_chunksExact hk
    have hmemRC : ∀ c ∈ (chunksExact n k a).map List.reverse, c.length = k := by
      intro c hc
      obtain ⟨d, hd, rfl⟩ := List.mem_map.1 hc
      simp [hmemC d hd]
    have hrev : reverseArr a n
        = some (((chunksExact n k a).map List.reverse).flatten) := by
      rw [reverseArr, if_neg (by simp [hmod]), hdivq]
    have hlen : (((chunksExact n k a).map List.reverse).flatten).length
        = a.length := by
      rw [flatten_length_of_chunks _ k hmemRC, List.length_map,
        chunksExact_length, hk]
    refine ⟨by rw [hrev]; rfl, by rw [hrev]; simpa using hlen, ?_⟩
    intro i hi
    have hiC : i < (chunksExact n k a).length := by
      rw [chunksExact_length]; exact hi
    have hiRC : i < ((chunksExact n k a).map List.reverse).length := by
      rw [List.length_map]; exact hiC
    have hseg_r := flatten_segment ((chunksExact n k a).map List.reverse) k
      hmemRC i hiRC
    have hseg_a := flatten_segment (chunksExact n k a) k hmemC i hiC
    rw [hflat] at hseg_a
    rw [hrev, hdivq]
    simp only [Option.getD_some]
    rw [hseg_r, hseg_a]
    simp only [List.get_eq_getElem, List.getElem_map]
  · intro b
    rw [reverseArr, if_neg (by simp [Nat.mod_one])]
    simp [chunksExact, Nat.div_one, List.take_length]

/-- Claim C4, witness: the segmentwise characterization applied to
`[1,2,3,4]` with subdivision 2, including the reversal of segment 1. -/
theorem C4_reverse_segmentwise_witness :
    (reverseArr ([1, 2, 3, 4] : List ℚ) 2).isSome = true ∧
    (((reverseArr ([1, 2, 3, 4] : List ℚ) 2).getD []).drop 2).take 2
      = ((([1, 2, 3, 4] : List ℚ).drop 2).take 2).reverse :=
  ⟨(C4_reverse_segmentwise.1 ℚ [1, 2, 3, 4] 2 (by decide) (by decide)).1,
   (C4_reverse_segmentwise.1 ℚ [1, 2, 3, 4] 2 (by decide) (by decide)).2.2
     1 (by decide)⟩

/-- Claim C5: applying `reverse` twice with the same subdivision `n`
dividing the array length restores the array exactly. -/
theorem C5_reverse_involution :
    ∀ (α : Type) (x : List α) (n : Nat), 0 < n → n ∣ x.length →
      (reverseArr x n).bind (fun y => reverseArr y n) = some x := by
  intro α x n hn hdvd
  obtain ⟨k, hk⟩ := hdvd
  have hmod : x.length % n = 0 := by rw [hk]; exact Nat.mul_mod_right n k
  have hdivq : x.length / n = k := by
    rw [hk]; exact Nat.mul_div_cancel_left k hn
  have hmemC : ∀ c ∈ chunksExact n k x, c.length = k :=
    length_of_mem_chunksExact hk
  have hflat : (chunksExact n k x).flatten = x := flatten_chunksExact hk
  have hmemRC : ∀ c ∈ (chunksExact n k x).map List.reverse, c.length = k := by
    intro c hc
    obtain ⟨d, hd, rfl⟩ := List.mem_map.1 hc
    simp [hmemC d hd]
  set y := ((chunksExact n k x).map List.reverse).flatten with hy
  have h1 : reverseArr x n = some y := by
    rw [reverseArr, if_neg (by simp [hmod]), hdivq]
  have hylen : y.length = n * k := by
    rw [hy, flatten_length_of_chunks _ k hmemRC, List.length_map,
      chunksExact_length]
  have hymod : y.length % n = 0 := by rw [hylen]; exact Nat.mul_mod_right n k
  have hydiv : y.length / n = k := by
    rw [hylen]; exact Nat.mul_div_cancel_left k hn
  have hchunks_y : chunksExact n k y = (chunksExact n k x).map List.reverse := by
    have := chunksExact_flatten ((chunksExact n k x).map List.reverse) k hmemRC
    rwa [List.length_map, chunksExact_length] at this
  have h2 : reverseArr y n = some x := by
    rw [reverseArr, if_neg (by simp [hymod]), hydiv, hchunks_y,
      List.map_map]
    have : (List.reverse ∘ List.reverse : List α → List α) = id := by
      funext l
      simp
    rw [this, List.map_id, hflat]
  rw [h1, Option.some_bind, h2]

/-- Claim C5, witness: the involution applied to `[1,2,3,4]` with
subdivision 2. -/
theorem C5_reverse_involution_witness :
    (reverseArr ([1, 2, 3, 4] : List ℚ) 2).bind
      (fun y => reverseArr y 2) = some [1, 2, 3, 4] :=
  C5_reverse_involution ℚ [1, 2, 3, 4] 2 (by decide) (by decide)

/-- Claim C6: splitting a stereo array yields two mono channels of the
input's length whose frame-by-frame interleaving reconstructs the input,
and `split([[1,4],[2,5],[3,6]], '2')` yields `([1,2,3], [4,5,6])`. -/
theorem C6_split_stereo :
    (∀ (a : List (ℚ × ℚ)) (name : String), ∃ L R,
      split a "2" name = SplitResult.pair L R ∧
      L.length = a.length ∧ R.length = a.length ∧ L.zip R = a) ∧
    split [(1, 4), (2, 5), (3, 6)] "2" "mix"
      = SplitResult.pair [1, 2, 3] [4, 5, 6] := by
  refine ⟨?_, by decide⟩
  intro a name
  refine ⟨a.map Prod.fst, a.map Prod.snd, ?_, by simp, by simp, ?_⟩
  · rw [split, if_neg (by decide)]
  · rw [List.zip_map']
    simp

end Soundscope
